import Mathlib

/-!
Shallow embedding of the `simcache` crate: a bounded in-process key-value
cache (`Simcache` in `src/cache.rs`) with optional per-entry TTL expiry and a
pluggable eviction policy (`src/eviction/policy.rs`), with the two concrete
policies LRU (`src/eviction/lru.rs`) and LFU (`src/eviction/lfu.rs`).

Modelling conventions:
- `HashMap K V` is modelled as an association list `List (K × V)`; insertion
  replaces any existing binding (`insertA`), removal deletes the binding
  (`eraseA`), lookup is `lookupA`.  `HashMap::len` is the list length.
- `BTreeMap Nat V` is modelled the same way; `first_key_value` becomes
  `minKeyEntry`, the entry with the smallest key (unique when keys are nodup,
  matching the BTreeMap's key uniqueness).
- `HashSet K` is modelled as a `List K` without duplicates; `iter().next()`
  (an arbitrary element) is modelled as the list head.
- `Instant` and `Duration` are `Nat`; every public cache operation takes the
  current instant `now : Nat` explicitly, standing for the `Instant::now()`
  calls it performs.
- A Rust `panic!` / `.expect(..)` is modelled by returning `none` from an
  `Option`-valued operation.
-/

universe u v

section AssocMap

variable {α : Type u} {β : Type v} [DecidableEq α]

/-- Lookup in an association list: the value of the first matching key
(mirrors `HashMap::get` / `BTreeMap::get`). -/
def lookupA : List (α × β) → α → Option β
  | [], _ => none
  | p :: t, k => if p.1 = k then some p.2 else lookupA t k

/-- Delete every binding of `k` (mirrors `HashMap::remove` on a map whose
keys are unique). -/
def eraseA : List (α × β) → α → List (α × β)
  | [], _ => []
  | p :: t, k => if p.1 = k then eraseA t k else p :: eraseA t k

/-- Insert-or-replace a binding (mirrors `HashMap::insert` /
`BTreeMap::insert`). -/
def insertA (l : List (α × β)) (k : α) (v : β) : List (α × β) :=
  (k, v) :: eraseA l k

/-- The keys of an association list. -/
def keysA (l : List (α × β)) : List α :=
  l.map Prod.fst


end AssocMap


/-! ### LRU policy (`src/eviction/lru.rs`)

`pub struct LRU<K> {access_order: VecDeque<K>}` — accessed keys are pushed
onto the back of `access_order`, so the oldest key is at the front. -/

structure LRU (K : Type u) where
  access_order : List K
deriving DecidableEq, Repr

namespace LRU

variable {K : Type u} [DecidableEq K]

/-- `fn remove_key`: remove the first occurrence of `key` from the queue if
present, else no-op. -/
def remove_key (p : LRU K) (key : K) : LRU K :=
  ⟨p.access_order.erase key⟩

/-- `fn key_used`: remove any existing occurrence, then push the key onto the
back of the queue. -/
def key_used (p : LRU K) (key : K) : LRU K :=
  ⟨(p.remove_key key).access_order ++ [key]⟩

/-- `fn evict_next`: pop the front (oldest) key; `none` models the
`expect` panic on an empty queue. -/
def evict_next (p : LRU K) : Option (K × LRU K) :=
  match p.access_order with
  | [] => none
  | h :: t => some (h, ⟨t⟩)

/-- `fn new`: an empty policy. -/
def new : LRU K := ⟨[]⟩

end LRU

/-! ### LFU policy (`src/eviction/lfu.rs`)

`usage_counter: HashMap<K, usize>` and `count_to_key: BTreeMap<usize,
HashSet<K>>`. Counter arithmetic uses `usize::saturating_add`, mirrored with
`min (old + 1) usizeMax`. -/

/-- `usize::MAX` on a 64-bit target. -/
def usizeMax : Nat := 2 ^ 64 - 1

/-- `BTreeMap::first_key_value`: the entry with the least key (keys of a
`BTreeMap` are unique, so this is unambiguous on nodup-key lists). -/
def minKeyEntry {β : Type v} : List (Nat × β) → Option (Nat × β)
  | [] => none
  | p :: t =>
    match minKeyEntry t with
    | none => some p
    | some q => if p.1 ≤ q.1 then some p else some q

/-- `HashSet::insert` on a duplicate-free list. -/
def setInsert {K : Type u} [DecidableEq K] (s : List K) (k : K) : List K :=
  if k ∈ s then s else k :: s

structure LFU (K : Type u) where
  usage_counter : List (K × Nat)
  count_to_key : List (Nat × List K)
deriving DecidableEq, Repr

namespace LFU

variable {K : Type u} [DecidableEq K]

/-- The `if old_count > 0 { ... }` block of `fn update_count_mapping`:
remove `key` from the bucket of `old_count`, dropping the bucket if it
becomes empty. -/
def removeFromBucket (ctk : List (Nat × List K)) (key : K) (old_count : Nat) :
    List (Nat × List K) :=
  if 0 < old_count then
    match lookupA ctk old_count with
    | some old_set =>
      if old_set.erase key = [] then eraseA ctk old_count
      else insertA ctk old_count (old_set.erase key)
    | none => ctk
  else ctk

/-- `fn update_count_mapping`: move `key` from the bucket of `old_count`
(cleaning the bucket if it becomes empty) to the bucket of `new_count`
(created on demand via `entry(..).or_insert_with(HashSet::new)`). -/
def update_count_mapping (p : LFU K) (key : K) (old_count new_count : Nat) :
    LFU K :=
  let ctk := removeFromBucket p.count_to_key key old_count
  let cur := (lookupA ctk new_count).getD []
  { p with count_to_key := insertA ctk new_count (setInsert cur key) }

/-- `fn key_used`: bump the key's counter (`1` on first use, saturating add
afterwards) and update the count-to-keys mapping. -/
def key_used (p : LFU K) (key : K) : LFU K :=
  match lookupA p.usage_counter key with
  | some old =>
    let nw := min (old + 1) usizeMax
    update_count_mapping { p with usage_counter := insertA p.usage_counter key nw }
      key old nw
  | none =>
    update_count_mapping { p with usage_counter := insertA p.usage_counter key 1 }
      key 0 1

/-- `fn evict_next`: take the bucket of least count, evict one of its keys
(the model picks the set's head for `iter().next()`), delete the key's
counter, and re-insert the bucket only if still non-empty.  `none` models
the two `expect` panics (empty map / empty bucket). -/
def evict_next (p : LFU K) : Option (K × LFU K) :=
  match minKeyEntry p.count_to_key with
  | none => none
  | some (min_count, key_set) =>
    let ctk1 := eraseA p.count_to_key min_count
    match key_set.head? with
    | none => none
    | some key_to_evict =>
      let uc := eraseA p.usage_counter key_to_evict
      let key_set' := key_set.erase key_to_evict
      let ctk2 := if key_set' = [] then ctk1
        else insertA ctk1 min_count key_set'
      some (key_to_evict, ⟨uc, ctk2⟩)

/-- `fn remove_key`: erase the key's counter and its bucket membership,
cleaning an empty bucket; a no-op for untracked keys.  `none` models the
`expect("key should be in tree")` panic when the counter exists but its
bucket does not. -/
def remove_key (p : LFU K) (key : K) : Option (LFU K) :=
  match lookupA p.usage_counter key with
  | none => some p
  | some v =>
    let uc := eraseA p.usage_counter key
    match lookupA p.count_to_key v with
    | none => none
    | some h_set =>
      let h_set' := h_set.erase key
      let ctk := if h_set' = [] then eraseA p.count_to_key v
        else insertA p.count_to_key v h_set'
      some ⟨uc, ctk⟩

/-- `fn new`: empty maps. -/
def new : LFU K := ⟨[], []⟩

end LFU

/-! ### The eviction-policy interface (`src/eviction/policy.rs`)

`pub trait EvictionPolicy<K>` with `evict_next`, `key_used`, `remove_key`,
`new`, here a first-class structure of operations so the cache can be stated
generically. -/

structure EvictionPolicy (P : Type u) (K : Type v) where
  evict_next : P → Option (K × P)
  key_used : P → K → P
  remove_key : P → K → Option P
  new : P

/-- The `impl EvictionPolicy<K> for LRU<K>`. -/
def lruPolicy (K : Type u) [DecidableEq K] : EvictionPolicy (LRU K) K where
  evict_next := LRU.evict_next
  key_used := LRU.key_used
  remove_key := fun p k => some (LRU.remove_key p k)
  new := LRU.new

/-- The `impl EvictionPolicy<K> for LFU<K>`. -/
def lfuPolicy (K : Type u) [DecidableEq K] : EvictionPolicy (LFU K) K where
  evict_next := LFU.evict_next
  key_used := LFU.key_used
  remove_key := LFU.remove_key
  new := LFU.new

/-! ### The cache (`src/cache.rs`)

`pub struct Simcache<K, V, E>` with `store: HashMap<K, (V, Option<Instant>)>`,
`eviction_policy: E`, `max_capacity: usize`. -/

structure Simcache (K : Type u) (V : Type v) (P : Type w) where
  store : List (K × (V × Option Nat))
  eviction_policy : P
  max_capacity : Nat
deriving DecidableEq

namespace Simcache

variable {K : Type u} {V : Type v} {P : Type w} [DecidableEq K]

/-- `pub fn new(max_capacity)`: an empty cache with a freshly initialized
policy. -/
def new (pol : EvictionPolicy P K) (max_capacity : Nat) : Simcache K V P :=
  { store := [], eviction_policy := pol.new, max_capacity := max_capacity }

/-- `pub fn len`: the current size of the store. -/
def len (c : Simcache K V P) : Nat :=
  c.store.length

/-- `pub fn get(&mut self, key)`: `none` if absent; if present but expired
(`Instant::now() > expiry`, strict), the entry is removed from the store and
`none` returned; otherwise the policy records a use and the value is
returned.  Returns the result together with the updated cache. -/
def get (pol : EvictionPolicy P K) (c : Simcache K V P) (now : Nat) (key : K) :
    Option V × Simcache K V P :=
  match lookupA c.store key with
  | none => (none, c)
  | some (_, exp) =>
    let expired :=
      match exp with
      | some expiry_time => decide (now > expiry_time)
      | none => false
    if expired then (none, { c with store := eraseA c.store key })
    else
      let c1 := { c with eviction_policy := pol.key_used c.eviction_policy key }
      ((lookupA c1.store key).map fun q => q.1, c1)

/-- `pub fn remove(&mut self, key)`: removes the entry from the store and
returns its value.  The call `self.eviction_policy.remove_key(key)` is
commented out in the source, so the policy is NOT informed. -/
def remove (c : Simcache K V P) (key : K) : Option V × Simcache K V P :=
  ((lookupA c.store key).map fun q => q.1,
    { c with store := eraseA c.store key })

/-- The tail of `pub fn insert`: write the entry (expiry `now + ttl` when a
ttl is given) and record the key as used with the policy. -/
def writeEntry (pol : EvictionPolicy P K) (c : Simcache K V P) (now : Nat)
    (key : K) (value : V) (ttl : Option Nat) : Simcache K V P :=
  let entry :=
    match ttl with
    | some x => (value, some (now + x))
    | none => (value, none)
  let c1 := { c with store := insertA c.store key entry }
  { c1 with eviction_policy := pol.key_used c1.eviction_policy key }

/-- `pub fn insert(&mut self, key, value, ttl)`: if
`store.len() > max_capacity - 1` and `self.get(&key)` (which itself may
expire-remove the entry and touch the policy) returns `None`, evict the
policy's next victim via `self.remove`; then write the entry and mark the
key used.  `none` models the `evict_next` panic on an empty policy.
`max_capacity - 1` is `Nat` subtraction; it agrees with the Rust `usize`
arithmetic whenever `max_capacity ≥ 1` (the spec leaves `0` undefined). -/
def insert (pol : EvictionPolicy P K) (c : Simcache K V P) (now : Nat)
    (key : K) (value : V) (ttl : Option Nat) : Option (Simcache K V P) :=
  if c.store.length > c.max_capacity - 1 then
    let r := get pol c now key
    if r.1.isNone then
      match pol.evict_next r.2.eviction_policy with
      | none => none
      | some (key_to_evict, p') =>
        let c2 := { r.2 with eviction_policy := p' }
        some (writeEntry pol (remove c2 key_to_evict).2 now key value ttl)
    else some (writeEntry pol r.2 now key value ttl)
  else some (writeEntry pol c now key value ttl)

end Simcache

/-! ### Invariants and operation runners -/

namespace LFU

variable {K : Type u} [DecidableEq K]

/-- `key` belongs to the count bucket for `c` in `count_to_key`. -/
def memBucket (p : LFU K) (c : Nat) (k : K) : Prop :=
  ∃ s, lookupA p.count_to_key c = some s ∧ k ∈ s

instance (p : LFU K) (c : Nat) (k : K) : Decidable (p.memBucket c k) :=
  match h : lookupA p.count_to_key c with
  | some s => decidable_of_iff (k ∈ s) (by simp [memBucket, h])
  | none => Decidable.isFalse (by simp [memBucket, h])

/-- The LFU dual-index invariant: keys of both maps are duplicate-free, each
retained bucket is a non-empty duplicate-free set whose members all carry
exactly that usage count, and every counted key (count ≥ 1) sits in the
bucket of its count. -/
def Inv (p : LFU K) : Prop :=
  (keysA p.usage_counter).Nodup ∧
  (keysA p.count_to_key).Nodup ∧
  (∀ q ∈ p.count_to_key, q.2 ≠ [] ∧ q.2.Nodup) ∧
  (∀ q ∈ p.count_to_key, ∀ k ∈ q.2, lookupA p.usage_counter k = some q.1) ∧
  (∀ r ∈ p.usage_counter, 1 ≤ r.2 ∧ p.memBucket r.2 r.1)

instance (p : LFU K) : Decidable p.Inv := by
  unfold Inv
  infer_instance

end LFU

/-- An abstract call to one of the three mutating LFU policy operations. -/
inductive LFUOp (K : Type u) where
  | used (key : K)
  | removed (key : K)
  | evict
deriving DecidableEq

/-- Run a list of LFU policy operations left to right; `none` when an
operation panics. -/
def runLFU {K : Type u} [DecidableEq K] :
    LFU K → List (LFUOp K) → Option (LFU K)
  | p, [] => some p
  | p, LFUOp.used k :: rest => runLFU (p.key_used k) rest
  | p, LFUOp.removed k :: rest =>
    match p.remove_key k with
    | none => none
    | some p' => runLFU p' rest
  | p, LFUOp.evict :: rest =>
    match p.evict_next with
    | none => none
    | some q => runLFU q.2 rest

/-- Run a list of `insert` calls `(now, key, value, ttl)` left to right. -/
def runInserts {K : Type u} {V : Type v} {P : Type w} [DecidableEq K]
    (pol : EvictionPolicy P K) :
    Simcache K V P → List (Nat × K × V × Option Nat) → Option (Simcache K V P)
  | c, [] => some c
  | c, (now, key, value, ttl) :: rest =>
    match Simcache.insert pol c now key value ttl with
    | none => none
    | some c' => runInserts pol c' rest

/-- Store/policy consistency for an LRU-policed cache: duplicate-free store
keys and access order, and the access order tracks exactly the stored keys. -/
def lruConsistent {K : Type u} {V : Type v} [DecidableEq K]
    (c : Simcache K V (LRU K)) : Prop :=
  (keysA c.store).Nodup ∧ c.eviction_policy.access_order.Nodup ∧
    ∀ j, j ∈ keysA c.store ↔ j ∈ c.eviction_policy.access_order

/-- Store/policy consistency for an LFU-policed cache: duplicate-free store
keys, the LFU dual-index invariant, and the usage counter tracks exactly the
stored keys. -/
def lfuConsistent {K : Type u} {V : Type v} [DecidableEq K]
    (c : Simcache K V (LFU K)) : Prop :=
  (keysA c.store).Nodup ∧ c.eviction_policy.Inv ∧
    ∀ j, j ∈ keysA c.store ↔ j ∈ keysA c.eviction_policy.usage_counter


section AssocMapLemmas

variable {α : Type u} {β : Type v} [DecidableEq α]

@[simp] theorem lookupA_nil (k : α) : lookupA ([] : List (α × β)) k = none := rfl

@[simp] theorem lookupA_cons (p : α × β) (t : List (α × β)) (k : α) :
    lookupA (p :: t) k = if p.1 = k then some p.2 else lookupA t k := rfl

@[simp] theorem eraseA_nil (k : α) : eraseA ([] : List (α × β)) k = [] := rfl

@[simp] theorem eraseA_cons (p : α × β) (t : List (α × β)) (k : α) :
    eraseA (p :: t) k = if p.1 = k then eraseA t k else p :: eraseA t k := rfl

@[simp] theorem keysA_nil : keysA ([] : List (α × β)) = [] := rfl

@[simp] theorem keysA_cons (p : α × β) (t : List (α × β)) :
    keysA (p :: t) = p.1 :: keysA t := rfl

@[simp] theorem lookupA_eraseA_self (l : List (α × β)) (k : α) :
    lookupA (eraseA l k) k = none := by
  induction l with
  | nil => rfl
  | cons p t ih =>
    by_cases h : p.1 = k <;> simp [h, ih]

theorem lookupA_eraseA_ne (l : List (α × β)) {k k' : α} (h : k' ≠ k) :
    lookupA (eraseA l k) k' = lookupA l k' := by
  induction l with
  | nil => rfl
  | cons p t ih =>
    by_cases hp : p.1 = k
    · simp [hp, Ne.symm h, ih]
    · by_cases hk' : p.1 = k' <;> simp [hp, hk', h, ih]

@[simp] theorem lookupA_insertA_self (l : List (α × β)) (k : α) (v : β) :
    lookupA (insertA l k v) k = some v := by
  simp [insertA]

theorem lookupA_insertA_ne (l : List (α × β)) {k k' : α} (v : β) (h : k' ≠ k) :
    lookupA (insertA l k v) k' = lookupA l k' := by
  have hne : k ≠ k' := fun hc => h hc.symm
  simp only [insertA, lookupA_cons, hne, if_false]
  exact lookupA_eraseA_ne l h

theorem mem_keysA_iff_lookupA (l : List (α × β)) (k : α) :
    k ∈ keysA l ↔ (lookupA l k).isSome := by
  induction l with
  | nil => simp
  | cons p t ih =>
    by_cases h : p.1 = k
    · simp [h]
    · have h' : k ≠ p.1 := fun hc => h hc.symm
      simp [h, h', List.mem_cons, ih]

theorem lookupA_eq_none_of_not_mem {l : List (α × β)} {k : α}
    (h : k ∉ keysA l) : lookupA l k = none := by
  by_cases hs : (lookupA l k).isSome
  · exact absurd ((mem_keysA_iff_lookupA l k).2 hs) h
  · cases hl : lookupA l k with
    | none => rfl
    | some v => rw [hl] at hs; simp at hs

theorem eraseA_of_not_mem {l : List (α × β)} {k : α} (h : k ∉ keysA l) :
    eraseA l k = l := by
  induction l with
  | nil => rfl
  | cons p t ih =>
    have hp : p.1 ≠ k := by
      intro hc
      exact h (by simp [hc])
    have ht : k ∉ keysA t := fun hc => h (by simp [hc])
    simp [hp, ih ht]

theorem keysA_eraseA (l : List (α × β)) (k : α) :
    keysA (eraseA l k) = (keysA l).filter fun a => !decide (a = k) := by
  induction l with
  | nil => rfl
  | cons p t ih =>
    by_cases h : p.1 = k
    · rw [eraseA_cons, if_pos h, ih, keysA_cons, List.filter_cons]
      simp [h]
    · rw [eraseA_cons, if_neg h, keysA_cons, keysA_cons, List.filter_cons]
      simp [h, ih]

theorem mem_keysA_eraseA {l : List (α × β)} {k k' : α} :
    k' ∈ keysA (eraseA l k) ↔ k' ∈ keysA l ∧ k' ≠ k := by
  rw [keysA_eraseA]
  simp [List.mem_filter]

theorem nodup_keysA_eraseA (l : List (α × β)) (k : α)
    (h : (keysA l).Nodup) : (keysA (eraseA l k)).Nodup := by
  rw [keysA_eraseA]
  exact h.filter _

theorem nodup_keysA_insertA (l : List (α × β)) (k : α) (v : β)
    (h : (keysA l).Nodup) : (keysA (insertA l k v)).Nodup := by
  have h1 : (keysA (eraseA l k)).Nodup := nodup_keysA_eraseA l k h
  have h2 : k ∉ keysA (eraseA l k) := by
    intro hc
    exact (mem_keysA_eraseA.1 hc).2 rfl
  simpa [insertA] using ⟨h2, h1⟩

theorem length_eraseA_of_lookupA_some (l : List (α × β)) (k : α)
    (hnd : (keysA l).Nodup) {v : β} (h : lookupA l k = some v) :
    (eraseA l k).length + 1 = l.length := by
  induction l with
  | nil => simp at h
  | cons p t ih =>
    have hnd1 : (keysA t).Nodup := (by simpa using hnd : p.1 ∉ keysA t ∧ _).2
    have hnotin : p.1 ∉ keysA t := (by simpa using hnd : p.1 ∉ keysA t ∧ _).1
    by_cases hp : p.1 = k
    · have hk : k ∉ keysA t := hp ▸ hnotin
      simp [hp, eraseA_of_not_mem hk]
    · have h' : lookupA t k = some v := by simpa [hp] using h
      simp only [eraseA_cons, hp, if_false, List.length_cons]
      rw [← ih hnd1 h']

theorem length_eraseA_of_lookupA_none (l : List (α × β)) (k : α)
    (h : lookupA l k = none) : eraseA l k = l := by
  apply eraseA_of_not_mem
  intro hc
  have := (mem_keysA_iff_lookupA l k).1 hc
  rw [h] at this
  simp at this

theorem mem_eraseA_iff {l : List (α × β)} {c : α} {q : α × β} :
    q ∈ eraseA l c ↔ q ∈ l ∧ q.1 ≠ c := by
  induction l with
  | nil => simp
  | cons p t ih =>
    by_cases h : p.1 = c
    · rw [eraseA_cons, if_pos h, ih]
      constructor
      · rintro ⟨hq, hne⟩
        exact ⟨List.mem_cons_of_mem _ hq, hne⟩
      · rintro ⟨hq, hne⟩
        rcases List.mem_cons.1 hq with rfl | hq
        · exact absurd h hne
        · exact ⟨hq, hne⟩
    · rw [eraseA_cons, if_neg h]
      constructor
      · intro hq
        rcases List.mem_cons.1 hq with rfl | hq
        · exact ⟨List.mem_cons_self _ _, h⟩
        · exact ⟨List.mem_cons_of_mem _ (ih.1 hq).1, (ih.1 hq).2⟩
      · rintro ⟨hq, hne⟩
        rcases List.mem_cons.1 hq with rfl | hq
        · exact List.mem_cons_self _ _
        · exact List.mem_cons_of_mem _ (ih.2 ⟨hq, hne⟩)

theorem mem_insertA_iff {l : List (α × β)} {c : α} {v : β} {q : α × β} :
    q ∈ insertA l c v ↔ q = (c, v) ∨ (q ∈ l ∧ q.1 ≠ c) := by
  simp [insertA, List.mem_cons, mem_eraseA_iff]

theorem lookupA_some_mem {l : List (α × β)} {k : α} {v : β}
    (h : lookupA l k = some v) : (k, v) ∈ l := by
  induction l with
  | nil => simp at h
  | cons p t ih =>
    by_cases hp : p.1 = k
    · rw [lookupA_cons, if_pos hp] at h
      have : p = (k, v) := by
        obtain ⟨a, b⟩ := p
        simp at hp h
        simp [hp, h]
      simp [this]
    · rw [lookupA_cons, if_neg hp] at h
      exact List.mem_cons_of_mem _ (ih h)

theorem lookupA_of_mem_nodup {l : List (α × β)} {k : α} {v : β}
    (hnd : (keysA l).Nodup) (h : (k, v) ∈ l) : lookupA l k = some v := by
  induction l with
  | nil => simp at h
  | cons p t ih =>
    have hnd1 : (keysA t).Nodup := (List.nodup_cons.1 hnd).2
    have hnotin : p.1 ∉ keysA t := (List.nodup_cons.1 hnd).1
    rcases List.mem_cons.1 h with rfl | h
    · simp
    · have hp : p.1 ≠ k := by
        rintro rfl
        exact hnotin (by simpa [keysA] using ⟨v, h⟩)
      rw [lookupA_cons, if_neg hp]
      exact ih hnd1 h

theorem length_insertA_of_lookupA_none (l : List (α × β)) (k : α) (v : β)
    (h : lookupA l k = none) : (insertA l k v).length = l.length + 1 := by
  simp [insertA, length_eraseA_of_lookupA_none l k h]

theorem length_insertA_of_lookupA_some (l : List (α × β)) (k : α) (v : β)
    (hnd : (keysA l).Nodup) {w : β} (h : lookupA l k = some w) :
    (insertA l k v).length = l.length := by
  simp [insertA]
  rw [← length_eraseA_of_lookupA_some l k hnd h]


end AssocMapLemmas

section AssocMapExtra

variable {α : Type u} {β : Type v} [DecidableEq α]

theorem eraseA_eraseA (l : List (α × β)) (k : α) :
    eraseA (eraseA l k) k = eraseA l k :=
  length_eraseA_of_lookupA_none _ _ (lookupA_eraseA_self l k)

theorem insertA_eraseA_self (l : List (α × β)) (k : α) (v : β) :
    insertA (eraseA l k) k v = insertA l k v := by
  simp [insertA, eraseA_eraseA]

theorem mem_keysA_insertA {l : List (α × β)} {k j : α} {v : β} :
    j ∈ keysA (insertA l k v) ↔ j = k ∨ j ∈ keysA l := by
  constructor
  · intro h
    simp only [insertA, keysA_cons] at h
    rcases List.mem_cons.1 h with h | h
    · exact Or.inl h
    · exact Or.inr (mem_keysA_eraseA.1 h).1
  · intro h
    rcases h with rfl | h
    · simp [insertA]
    · by_cases hjk : j = k
      · simp [insertA, hjk]
      · simp only [insertA, keysA_cons]
        exact List.mem_cons_of_mem _ (mem_keysA_eraseA.2 ⟨h, hjk⟩)

end AssocMapExtra

section SetMinLemmas

variable {K : Type u} [DecidableEq K] {β : Type v}

theorem mem_setInsert {s : List K} {k a : K} :
    a ∈ setInsert s k ↔ a = k ∨ a ∈ s := by
  by_cases h : k ∈ s
  · constructor
    · intro ha
      exact Or.inr (by simpa [setInsert, h] using ha)
    · intro ha
      rcases ha with rfl | ha <;> simpa [setInsert, h]
  · simp [setInsert, h]

theorem nodup_setInsert {s : List K} (k : K) (h : s.Nodup) :
    (setInsert s k).Nodup := by
  by_cases hk : k ∈ s <;> simp [setInsert, hk, h]

theorem setInsert_ne_nil {s : List K} (k : K) : setInsert s k ≠ [] := by
  intro hc
  have : k ∈ setInsert s k := mem_setInsert.2 (Or.inl rfl)
  rw [hc] at this
  simp at this

theorem minKeyEntry_eq_none_iff {l : List (Nat × β)} :
    minKeyEntry l = none ↔ l = [] := by
  cases l with
  | nil => simp [minKeyEntry]
  | cons p t =>
    simp only [minKeyEntry]
    cases minKeyEntry t with
    | none => simp
    | some q =>
      by_cases h : p.1 ≤ q.1 <;> simp [h]

theorem minKeyEntry_mem {l : List (Nat × β)} {q : Nat × β}
    (h : minKeyEntry l = some q) : q ∈ l := by
  induction l with
  | nil => simp [minKeyEntry] at h
  | cons p t ih =>
    cases ht : minKeyEntry t with
    | none =>
      simp only [minKeyEntry, ht] at h
      simp at h
      simp [h]
    | some r =>
      simp only [minKeyEntry, ht] at h
      by_cases hle : p.1 ≤ r.1
      · rw [if_pos hle] at h
        simp at h
        simp [h]
      · rw [if_neg hle] at h
        simp at h
        exact List.mem_cons_of_mem _ (ih (h ▸ ht))

theorem minKeyEntry_min {l : List (Nat × β)} {q : Nat × β}
    (h : minKeyEntry l = some q) : ∀ r ∈ l, q.1 ≤ r.1 := by
  induction l generalizing q with
  | nil => simp [minKeyEntry] at h
  | cons p t ih =>
    intro x hx
    cases ht : minKeyEntry t with
    | none =>
      have hnil : t = [] := minKeyEntry_eq_none_iff.1 ht
      subst hnil
      simp only [minKeyEntry, ht] at h
      injection h with h
      simp at hx
      rw [← h, hx]
    | some r =>
      simp only [minKeyEntry, ht] at h
      by_cases hle : p.1 ≤ r.1
      · rw [if_pos hle] at h
        injection h with h
        rcases List.mem_cons.1 hx with rfl | hx2
        · rw [← h]
        · have hq := ih ht x hx2
          rw [← h]
          omega
      · rw [if_neg hle] at h
        injection h with h
        rcases List.mem_cons.1 hx with rfl | hx2
        · rw [← h]
          omega
        · have hq := ih ht x hx2
          rw [← h]
          exact hq

end SetMinLemmas

/-! ### LRU lemmas -/

namespace LRU

variable {K : Type u} [DecidableEq K]

theorem nodup_key_used {p : LRU K} (hnd : p.access_order.Nodup) (k : K) :
    (p.key_used k).access_order.Nodup := by
  have h1 : (p.access_order.erase k).Nodup := hnd.erase k
  have h2 : k ∉ p.access_order.erase k := by
    intro hc
    exact ((hnd.mem_erase_iff).1 hc).1 rfl
  simp [key_used, remove_key, List.nodup_append, h1, h2]

theorem mem_key_used {p : LRU K} (hnd : p.access_order.Nodup) {k j : K} :
    j ∈ (p.key_used k).access_order ↔ j ∈ p.access_order ∨ j = k := by
  simp only [key_used, remove_key, List.mem_append, List.mem_singleton]
  constructor
  · rintro (h | rfl)
    · exact Or.inl ((hnd.mem_erase_iff).1 h).2
    · exact Or.inr rfl
  · rintro (h | rfl)
    · by_cases hjk : j = k
      · exact Or.inr hjk
      · exact Or.inl ((hnd.mem_erase_iff).2 ⟨hjk, h⟩)
    · exact Or.inr rfl

theorem evict_next_eq_none_iff {p : LRU K} :
    p.evict_next = none ↔ p.access_order = [] := by
  cases h : p.access_order with
  | nil => simp [evict_next, h]
  | cons a t => simp [evict_next, h]

theorem evict_next_cons_shape {p : LRU K} {k : K} {p' : LRU K}
    (h : p.evict_next = some (k, p')) :
    p.access_order = k :: p'.access_order := by
  cases ha : p.access_order with
  | nil => simp [evict_next, ha] at h
  | cons a t =>
    simp [evict_next, ha] at h
    simp [h.1, ← h.2]

end LRU

/-! ### LFU lemmas -/

namespace LFU

variable {K : Type u} [DecidableEq K]

theorem update_count_mapping_usage (p : LFU K) (key : K) (oc nc : Nat) :
    (p.update_count_mapping key oc nc).usage_counter = p.usage_counter := rfl

theorem inv_new : (new : LFU K).Inv := by
  refine ⟨?_, ?_, ?_, ?_, ?_⟩ <;> simp [new, keysA]

/-- After removing `key` from its old bucket, the intermediate map has
duplicate-free keys, non-empty duplicate-free buckets, buckets sound for the
OLD usage counter and free of `key`, and still complete for every counted
key other than `key`. -/
theorem removeFromBucket_facts {p : LFU K} (hInv : p.Inv) {key : K} {oc : Nat}
    (hcase : (oc = 0 ∧ lookupA p.usage_counter key = none) ∨
      (1 ≤ oc ∧ lookupA p.usage_counter key = some oc)) :
    (keysA (removeFromBucket p.count_to_key key oc)).Nodup ∧
    (∀ q ∈ removeFromBucket p.count_to_key key oc, q.2 ≠ [] ∧ q.2.Nodup) ∧
    (∀ q ∈ removeFromBucket p.count_to_key key oc, ∀ j ∈ q.2,
      j ≠ key ∧ lookupA p.usage_counter j = some q.1) ∧
    (∀ r ∈ p.usage_counter, r.1 ≠ key →
      ∃ s, lookupA (removeFromBucket p.count_to_key key oc) r.2 = some s ∧
        r.1 ∈ s) := by
  obtain ⟨hnUC, hnCTK, hBK, hBS, hCC⟩ := hInv
  rcases hcase with ⟨hoc, hnone⟩ | ⟨hoc, hsome⟩
  · subst hoc
    have hrm : removeFromBucket p.count_to_key key 0 = p.count_to_key := by
      simp [removeFromBucket]
    rw [hrm]
    refine ⟨hnCTK, hBK, ?_, ?_⟩
    · intro q hq j hj
      refine ⟨?_, hBS q hq j hj⟩
      rintro rfl
      have hx := hBS q hq j hj
      rw [hnone] at hx
      exact Option.noConfusion hx
    · intro r hr _
      exact (hCC r hr).2
  · have hoc' : 0 < oc := hoc
    have hkey_mem : (key, oc) ∈ p.usage_counter := lookupA_some_mem hsome
    obtain ⟨-, hmb⟩ := hCC _ hkey_mem
    obtain ⟨s0, hs0, hks0⟩ := hmb
    have hs0mem : (oc, s0) ∈ p.count_to_key := lookupA_some_mem hs0
    have hs0nodup : s0.Nodup := (hBK _ hs0mem).2
    have hrm : removeFromBucket p.count_to_key key oc =
        (if s0.erase key = [] then eraseA p.count_to_key oc
         else insertA p.count_to_key oc (s0.erase key)) := by
      simp [removeFromBucket, hoc', hs0]
    rw [hrm]
    by_cases hnil : s0.erase key = []
    · rw [if_pos hnil]
      refine ⟨nodup_keysA_eraseA _ _ hnCTK, ?_, ?_, ?_⟩
      · intro q hq
        exact hBK q (mem_eraseA_iff.1 hq).1
      · intro q hq j hj
        have hq' := mem_eraseA_iff.1 hq
        refine ⟨?_, hBS q hq'.1 j hj⟩
        rintro rfl
        have h1 := hBS q hq'.1 j hj
        rw [hsome] at h1
        injection h1 with h1
        exact hq'.2 h1.symm
      · intro r hr hrk
        obtain ⟨-, hmb2⟩ := hCC r hr
        obtain ⟨s2, hs2, hrs2⟩ := hmb2
        by_cases hroc : r.2 = oc
        · exfalso
          rw [hroc, hs0] at hs2
          injection hs2 with hs2
          subst hs2
          have hre : r.1 ∈ s0.erase key := hs0nodup.mem_erase_iff.2 ⟨hrk, hrs2⟩
          rw [hnil] at hre
          simp at hre
        · exact ⟨s2, by rw [lookupA_eraseA_ne _ hroc]; exact hs2, hrs2⟩
    · rw [if_neg hnil]
      refine ⟨nodup_keysA_insertA _ _ _ hnCTK, ?_, ?_, ?_⟩
      · intro q hq
        rcases mem_insertA_iff.1 hq with rfl | ⟨hq1, -⟩
        · exact ⟨hnil, hs0nodup.erase key⟩
        · exact hBK q hq1
      · intro q hq j hj
        rcases mem_insertA_iff.1 hq with rfl | ⟨hq1, hq2⟩
        · have hj' := hs0nodup.mem_erase_iff.1 hj
          exact ⟨hj'.1, by rw [hBS _ hs0mem j hj'.2]⟩
        · refine ⟨?_, hBS q hq1 j hj⟩
          rintro rfl
          have h1 := hBS q hq1 j hj
          rw [hsome] at h1
          injection h1 with h1
          exact hq2 h1.symm
      · intro r hr hrk
        obtain ⟨-, hmb2⟩ := hCC r hr
        obtain ⟨s2, hs2, hrs2⟩ := hmb2
        by_cases hroc : r.2 = oc
        · rw [hroc, hs0] at hs2
          injection hs2 with hs2
          subst hs2
          refine ⟨s0.erase key, ?_, hs0nodup.mem_erase_iff.2 ⟨hrk, hrs2⟩⟩
          rw [hroc]
          exact lookupA_insertA_self _ _ _
        · exact ⟨s2, by rw [lookupA_insertA_ne _ _ hroc]; exact hs2, hrs2⟩

end LFU

namespace LFU

variable {K : Type u} [DecidableEq K]

/-- `update_count_mapping` preserves the invariant when applied exactly as
`key_used` applies it: counter already rewritten to `nc ≥ 1`, and `oc` the
key's previous count (`0` and untracked, or `≥ 1` and tracked). -/
theorem inv_update_count_mapping {p : LFU K} (hInv : p.Inv) {key : K}
    {oc nc : Nat} (hnc : 1 ≤ nc)
    (hcase : (oc = 0 ∧ lookupA p.usage_counter key = none) ∨
      (1 ≤ oc ∧ lookupA p.usage_counter key = some oc)) :
    (update_count_mapping { p with usage_counter := insertA p.usage_counter key nc }
      key oc nc).Inv := by
  obtain ⟨hM1, hM2, hM3, hM4⟩ := removeFromBucket_facts hInv hcase
  obtain ⟨hnUC, hnCTK, hBK, hBS, hCC⟩ := hInv
  show Inv ⟨insertA p.usage_counter key nc,
    insertA (removeFromBucket p.count_to_key key oc) nc
      (setInsert ((lookupA (removeFromBucket p.count_to_key key oc) nc).getD [])
        key)⟩
  refine ⟨nodup_keysA_insertA _ _ _ hnUC, nodup_keysA_insertA _ _ _ hM1,
    ?_, ?_, ?_⟩
  · intro q hq
    rcases mem_insertA_iff.1 hq with rfl | ⟨hq1, -⟩
    · refine ⟨setInsert_ne_nil key, ?_⟩
      apply nodup_setInsert
      cases hc : lookupA (removeFromBucket p.count_to_key key oc) nc with
      | none => simp [hc]
      | some s =>
        have hsn := (hM2 _ (lookupA_some_mem hc)).2
        simpa [hc] using hsn
    · exact hM2 q hq1
  · intro q hq j hj
    rcases mem_insertA_iff.1 hq with rfl | ⟨hq1, hq2⟩
    · rcases mem_setInsert.1 hj with rfl | hjcur
      · exact lookupA_insertA_self _ _ _
      · cases hc : lookupA (removeFromBucket p.count_to_key key oc) nc with
        | none =>
          rw [hc] at hjcur
          simp at hjcur
        | some s =>
          rw [hc] at hjcur
          have h3 := hM3 _ (lookupA_some_mem hc) j (by simpa using hjcur)
          rw [lookupA_insertA_ne _ _ h3.1]
          exact h3.2
    · have h3 := hM3 q hq1 j hj
      rw [lookupA_insertA_ne _ _ h3.1]
      exact h3.2
  · intro r hr
    rcases mem_insertA_iff.1 hr with rfl | ⟨hr1, hrk⟩
    · exact ⟨hnc, ⟨_, lookupA_insertA_self _ _ _, mem_setInsert.2 (Or.inl rfl)⟩⟩
    · refine ⟨(hCC r hr1).1, ?_⟩
      obtain ⟨s, hs, hrs⟩ := hM4 r hr1 hrk
      by_cases hrn : r.2 = nc
      · refine ⟨_, by rw [hrn]; exact lookupA_insertA_self _ _ _, ?_⟩
        apply mem_setInsert.2
        right
        rw [hrn] at hs
        rw [hs]
        exact hrs
      · exact ⟨s, by rw [lookupA_insertA_ne _ _ hrn]; exact hs, hrs⟩

/-- `key_used` preserves the LFU invariant. -/
theorem inv_key_used {p : LFU K} (hInv : p.Inv) (key : K) :
    (p.key_used key).Inv := by
  cases hl : lookupA p.usage_counter key with
  | none =>
    have h := inv_update_count_mapping hInv (le_refl 1) (Or.inl ⟨rfl, hl⟩)
    simpa [key_used, hl] using h
  | some old =>
    have hold : 1 ≤ old := (hInv.2.2.2.2 _ (lookupA_some_mem hl)).1
    have hnw : 1 ≤ min (old + 1) usizeMax := by
      apply le_min
      · omega
      · simp [usizeMax]
    have h := inv_update_count_mapping hInv hnw (Or.inr ⟨hold, hl⟩)
    simpa [key_used, hl] using h

/-- The usage counter after `key_used` is `insertA` of some positive count. -/
theorem key_used_usage (p : LFU K) (key : K) :
    ∃ n, 1 ≤ n ∧
      (p.key_used key).usage_counter = insertA p.usage_counter key n := by
  cases hl : lookupA p.usage_counter key with
  | none =>
    exact ⟨1, le_refl 1, by simp [key_used, hl, update_count_mapping_usage]⟩
  | some old =>
    refine ⟨min (old + 1) usizeMax, ?_,
      by simp [key_used, hl, update_count_mapping_usage]⟩
    apply le_min
    · omega
    · simp [usizeMax]

/-- Removing a tracked key's counter and bucket membership preserves the
invariant. -/
theorem inv_removed {p : LFU K} (hInv : p.Inv) {key : K} {c : Nat}
    (hl : lookupA p.usage_counter key = some c) :
    Inv ⟨eraseA p.usage_counter key, removeFromBucket p.count_to_key key c⟩ := by
  have hc1 : 1 ≤ c := (hInv.2.2.2.2 _ (lookupA_some_mem hl)).1
  obtain ⟨hM1, hM2, hM3, hM4⟩ := removeFromBucket_facts hInv (Or.inr ⟨hc1, hl⟩)
  obtain ⟨hnUC, hnCTK, hBK, hBS, hCC⟩ := hInv
  refine ⟨nodup_keysA_eraseA _ _ hnUC, hM1, hM2, ?_, ?_⟩
  · intro q hq j hj
    have h3 := hM3 q hq j hj
    rw [lookupA_eraseA_ne _ h3.1]
    exact h3.2
  · intro r hr
    have hr' := mem_eraseA_iff.1 hr
    exact ⟨(hCC r hr'.1).1, hM4 r hr'.1 hr'.2⟩

/-- The shape of `remove_key` on a tracked key (under the invariant the
`expect` cannot fire). -/
theorem remove_key_eq_of_some {p : LFU K} {key : K} {c : Nat}
    (hl : lookupA p.usage_counter key = some c) (hc : 0 < c)
    {s : List K} (hs : lookupA p.count_to_key c = some s) :
    p.remove_key key =
      some ⟨eraseA p.usage_counter key,
        removeFromBucket p.count_to_key key c⟩ := by
  simp [remove_key, hl, hs, removeFromBucket, hc]

/-- `remove_key` preserves the LFU invariant whenever it returns. -/
theorem inv_remove_key {p q : LFU K} (hInv : p.Inv) {key : K}
    (h : p.remove_key key = some q) : q.Inv := by
  cases hl : lookupA p.usage_counter key with
  | none =>
    have hq : q = p := by
      have := h
      simp [remove_key, hl] at this
      exact this.symm
    rw [hq]
    exact hInv
  | some c =>
    have hcc := hInv.2.2.2.2 _ (lookupA_some_mem hl)
    obtain ⟨s, hs, hks⟩ := hcc.2
    rw [remove_key_eq_of_some hl hcc.1 hs] at h
    injection h with h
    rw [← h]
    exact inv_removed hInv hl

/-- Everything `evict_next` guarantees when it succeeds, under the
invariant: the returned key carries the minimum count among all tracked
keys, its counter is erased, and its bucket is shrunk or deleted. -/
theorem evict_next_some_spec {p : LFU K} (hInv : p.Inv) {k : K} {p' : LFU K}
    (h : p.evict_next = some (k, p')) :
    ∃ c s, lookupA p.count_to_key c = some s ∧ k ∈ s ∧
      lookupA p.usage_counter k = some c ∧
      (∀ r ∈ p.usage_counter, c ≤ r.2) ∧
      p'.usage_counter = eraseA p.usage_counter k ∧
      lookupA p'.count_to_key c =
        (if s.erase k = [] then none else some (s.erase k)) ∧
      p'.Inv := by
  cases hmin : minKeyEntry p.count_to_key with
  | none => simp [evict_next, hmin] at h
  | some mq =>
    obtain ⟨mc, ks⟩ := mq
    cases hh : ks.head? with
    | none => simp [evict_next, hmin, hh] at h
    | some k0 =>
      have hmem := minKeyEntry_mem hmin
      have hlook : lookupA p.count_to_key mc = some ks :=
        lookupA_of_mem_nodup hInv.2.1 hmem
      have hk0ks : k0 ∈ ks := List.mem_of_mem_head? hh
      have huk : lookupA p.usage_counter k0 = some mc :=
        hInv.2.2.2.1 _ hmem k0 hk0ks
      have heq : p.evict_next = some (k0, ⟨eraseA p.usage_counter k0,
          if ks.erase k0 = [] then eraseA p.count_to_key mc
          else insertA (eraseA p.count_to_key mc) mc (ks.erase k0)⟩) := by
        simp [evict_next, hmin, hh]
      rw [heq] at h
      injection h with h
      rw [Prod.mk.injEq] at h
      obtain ⟨h1, h2⟩ := h
      subst h1
      subst h2
      have hmc1 : 1 ≤ mc := (hInv.2.2.2.2 _ (lookupA_some_mem huk)).1
      have hmc0 : 0 < mc := hmc1
      have hctk : (if ks.erase k0 = [] then eraseA p.count_to_key mc
          else insertA (eraseA p.count_to_key mc) mc (ks.erase k0)) =
          removeFromBucket p.count_to_key k0 mc := by
        by_cases hnil : ks.erase k0 = []
        · simp [removeFromBucket, hmc0, hlook, hnil]
        · simp [removeFromBucket, hmc0, hlook, hnil, insertA_eraseA_self]
      refine ⟨mc, ks, hlook, hk0ks, huk, ?_, rfl, ?_, ?_⟩
      · intro r hr
        obtain ⟨s2, hs2, -⟩ := (hInv.2.2.2.2 r hr).2
        exact minKeyEntry_min hmin _ (lookupA_some_mem hs2)
      · by_cases hnil : ks.erase k0 = []
        · simp [hnil]
        · simp [hnil]
      · show Inv ⟨eraseA p.usage_counter k0,
          if ks.erase k0 = [] then eraseA p.count_to_key mc
          else insertA (eraseA p.count_to_key mc) mc (ks.erase k0)⟩
        rw [hctk]
        exact inv_removed hInv huk

/-- Under the invariant, `evict_next` succeeds on any policy with a
non-empty usage counter. -/
theorem evict_next_isSome {p : LFU K} (hInv : p.Inv)
    (hne : p.usage_counter ≠ []) :
    ∃ k p', p.evict_next = some (k, p') := by
  obtain ⟨r, hr⟩ : ∃ r, r ∈ p.usage_counter := by
    cases hc : p.usage_counter with
    | nil => exact absurd hc hne
    | cons a t => exact ⟨a, by simp [hc]⟩
  obtain ⟨s, hs, -⟩ := (hInv.2.2.2.2 r hr).2
  have hctkne : p.count_to_key ≠ [] := by
    intro hc
    rw [hc] at hs
    simp at hs
  cases hmin : minKeyEntry p.count_to_key with
  | none => exact absurd (minKeyEntry_eq_none_iff.1 hmin) hctkne
  | some mq =>
    obtain ⟨mc, ks⟩ := mq
    have hksne : ks ≠ [] := (hInv.2.2.1 _ (minKeyEntry_mem hmin)).1
    cases hh : ks.head? with
    | none =>
      rw [List.head?_eq_none_iff] at hh
      exact absurd hh hksne
    | some k0 =>
      refine ⟨k0, ⟨eraseA p.usage_counter k0,
        if ks.erase k0 = [] then eraseA p.count_to_key mc
        else insertA (eraseA p.count_to_key mc) mc (ks.erase k0)⟩, ?_⟩
      simp [evict_next, hmin, hh]

/-- Running any panic-free operation sequence preserves the invariant. -/
theorem runLFU_inv : ∀ (ops : List (LFUOp K)) (p p' : LFU K),
    p.Inv → runLFU p ops = some p' → p'.Inv := by
  intro ops
  induction ops with
  | nil =>
    intro p p' h hrun
    simp [runLFU] at hrun
    rw [← hrun]
    exact h
  | cons op rest ih =>
    intro p p' h hrun
    cases op with
    | used k =>
      exact ih _ _ (inv_key_used h k) (by simpa [runLFU] using hrun)
    | removed k =>
      simp only [runLFU] at hrun
      cases hrk : p.remove_key k with
      | none =>
        rw [hrk] at hrun
        exact Option.noConfusion hrun
      | some q =>
        rw [hrk] at hrun
        exact ih _ _ (inv_remove_key h hrk) hrun
    | evict =>
      simp only [runLFU] at hrun
      cases hev : p.evict_next with
      | none =>
        rw [hev] at hrun
        exact Option.noConfusion hrun
      | some q =>
        obtain ⟨k0, p0⟩ := q
        rw [hev] at hrun
        obtain ⟨-, -, -, -, -, -, -, -, hinv'⟩ := evict_next_some_spec h hev
        exact ih _ _ hinv' hrun

end LFU

/-! ### Cache lemmas -/

namespace Simcache

variable {K : Type u} {V : Type v} {P : Type w} [DecidableEq K]

theorem get_absent (pol : EvictionPolicy P K) {c : Simcache K V P} {now : Nat}
    {key : K} (h : lookupA c.store key = none) :
    get pol c now key = (none, c) := by
  simp [get, h]

theorem get_no_ttl (pol : EvictionPolicy P K) {c : Simcache K V P} {now : Nat}
    {key : K} {v : V} (h : lookupA c.store key = some (v, none)) :
    get pol c now key =
      (some v, { c with eviction_policy := pol.key_used c.eviction_policy key }) := by
  simp [get, h]

theorem get_live (pol : EvictionPolicy P K) {c : Simcache K V P} {now : Nat}
    {key : K} {v : V} {e : Nat} (h : lookupA c.store key = some (v, some e))
    (hlive : ¬ now > e) :
    get pol c now key =
      (some v, { c with eviction_policy := pol.key_used c.eviction_policy key }) := by
  simp [get, h, hlive]

theorem get_expired (pol : EvictionPolicy P K) {c : Simcache K V P} {now : Nat}
    {key : K} {v : V} {e : Nat} (h : lookupA c.store key = some (v, some e))
    (hexp : now > e) :
    get pol c now key = (none, { c with store := eraseA c.store key }) := by
  simp [get, h, hexp]

theorem writeEntry_store (pol : EvictionPolicy P K) (c : Simcache K V P)
    (now : Nat) (key : K) (v : V) (ttl : Option Nat) :
    (writeEntry pol c now key v ttl).store =
      insertA c.store key
        (v, match ttl with | some x => some (now + x) | none => none) := by
  cases ttl <;> rfl

theorem writeEntry_policy (pol : EvictionPolicy P K) (c : Simcache K V P)
    (now : Nat) (key : K) (v : V) (ttl : Option Nat) :
    (writeEntry pol c now key v ttl).eviction_policy =
      pol.key_used c.eviction_policy key := rfl

theorem writeEntry_max (pol : EvictionPolicy P K) (c : Simcache K V P)
    (now : Nat) (key : K) (v : V) (ttl : Option Nat) :
    (writeEntry pol c now key v ttl).max_capacity = c.max_capacity := rfl

end Simcache

/-! ### C4 machinery: fresh inserts keep the cache within capacity -/

section FreshInserts

variable {K : Type u} {V : Type v} [DecidableEq K]

theorem writeEntry_fresh_lru {c : Simcache K V (LRU K)} {key : K}
    (now : Nat) (v : V) (ttl : Option Nat)
    (hcons : lruConsistent c) (hfresh : key ∉ keysA c.store) :
    lruConsistent (Simcache.writeEntry (lruPolicy K) c now key v ttl) ∧
    (Simcache.writeEntry (lruPolicy K) c now key v ttl).len = c.len + 1 ∧
    (Simcache.writeEntry (lruPolicy K) c now key v ttl).max_capacity =
      c.max_capacity ∧
    (∀ j ∈ keysA (Simcache.writeEntry (lruPolicy K) c now key v ttl).store,
      j = key ∨ j ∈ keysA c.store) := by
  obtain ⟨hndS, hndA, hSA⟩ := hcons
  have hlook : lookupA c.store key = none := lookupA_eq_none_of_not_mem hfresh
  refine ⟨⟨?_, ?_, ?_⟩, ?_, Simcache.writeEntry_max _ _ _ _ _ _, ?_⟩
  · rw [Simcache.writeEntry_store]
    exact nodup_keysA_insertA _ _ _ hndS
  · show ((lruPolicy K).key_used c.eviction_policy key).access_order.Nodup
    exact LRU.nodup_key_used hndA key
  · intro j
    rw [Simcache.writeEntry_store]
    show j ∈ keysA (insertA c.store key _) ↔
      j ∈ ((lruPolicy K).key_used c.eviction_policy key).access_order
    rw [mem_keysA_insertA]
    show _ ↔ j ∈ (c.eviction_policy.key_used key).access_order
    rw [LRU.mem_key_used hndA]
    rw [hSA j]
    tauto
  · show (Simcache.writeEntry (lruPolicy K) c now key v ttl).store.length =
      c.store.length + 1
    rw [Simcache.writeEntry_store]
    exact length_insertA_of_lookupA_none _ _ _ hlook
  · intro j hj
    rw [Simcache.writeEntry_store] at hj
    rcases mem_keysA_insertA.1 hj with rfl | hj2
    · exact Or.inl rfl
    · exact Or.inr hj2

theorem insert_fresh_lru (c : Simcache K V (LRU K)) (now : Nat) (key : K)
    (v : V) (ttl : Option Nat)
    (hcap : 1 ≤ c.max_capacity) (hcons : lruConsistent c)
    (hlen : c.len ≤ c.max_capacity) (hfresh : key ∉ keysA c.store) :
    ∃ c', Simcache.insert (lruPolicy K) c now key v ttl = some c' ∧
      lruConsistent c' ∧ c'.len ≤ c.max_capacity ∧
      c'.max_capacity = c.max_capacity ∧
      (∀ j ∈ keysA c'.store, j = key ∨ j ∈ keysA c.store) := by
  obtain ⟨hndS, hndA, hSA⟩ := hcons
  have hlook : lookupA c.store key = none := lookupA_eq_none_of_not_mem hfresh
  have hget : Simcache.get (lruPolicy K) c now key = (none, c) :=
    Simcache.get_absent _ hlook
  by_cases hcond : c.store.length > c.max_capacity - 1
  · have hlen_eq : c.store.length = c.max_capacity := by
      have hl : c.store.length ≤ c.max_capacity := hlen
      omega
    have hstore_ne : c.store ≠ [] := by
      intro hnil
      rw [hnil] at hlen_eq
      simp at hlen_eq
      omega
    obtain ⟨h0, t0, hao⟩ : ∃ h0 t0,
        c.eviction_policy.access_order = h0 :: t0 := by
      cases hao' : c.eviction_policy.access_order with
      | nil =>
        exfalso
        cases hs : c.store with
        | nil => exact hstore_ne hs
        | cons a t =>
          have ha : a.1 ∈ keysA c.store := by simp [hs]
          have := (hSA a.1).1 ha
          rw [hao'] at this
          simp at this
      | cons a t => exact ⟨a, t, rfl⟩
    have hndT : t0.Nodup ∧ h0 ∉ t0 := by
      rw [hao] at hndA
      exact ⟨(List.nodup_cons.1 hndA).2, (List.nodup_cons.1 hndA).1⟩
    have hh0_store : h0 ∈ keysA c.store := (hSA h0).2 (by rw [hao]; simp)
    obtain ⟨w, hw⟩ : ∃ w, lookupA c.store h0 = some w := by
      have hsome := (mem_keysA_iff_lookupA _ _).1 hh0_store
      cases hl : lookupA c.store h0 with
      | none => rw [hl] at hsome; simp at hsome
      | some w => exact ⟨w, rfl⟩
    have hev : (lruPolicy K).evict_next c.eviction_policy =
        some (h0, ⟨t0⟩) := by
      show LRU.evict_next c.eviction_policy = some (h0, ⟨t0⟩)
      simp [LRU.evict_next, hao]
    have hres : Simcache.insert (lruPolicy K) c now key v ttl =
        some (Simcache.writeEntry (lruPolicy K)
          { store := eraseA c.store h0, eviction_policy := ⟨t0⟩,
            max_capacity := c.max_capacity } now key v ttl) := by
      simp [Simcache.insert, hcond, hget, hev, Simcache.remove]
    set cmid : Simcache K V (LRU K) :=
      { store := eraseA c.store h0, eviction_policy := ⟨t0⟩,
        max_capacity := c.max_capacity } with hcmid
    have hmidcons : lruConsistent cmid := by
      refine ⟨nodup_keysA_eraseA _ _ hndS, hndT.1, ?_⟩
      intro j
      show j ∈ keysA (eraseA c.store h0) ↔ j ∈ t0
      rw [mem_keysA_eraseA]
      constructor
      · rintro ⟨hj, hne⟩
        have := (hSA j).1 hj
        rw [hao] at this
        rcases List.mem_cons.1 this with rfl | ht
        · exact absurd rfl hne
        · exact ht
      · intro ht
        refine ⟨(hSA j).2 (by rw [hao]; exact List.mem_cons_of_mem _ ht), ?_⟩
        rintro rfl
        exact hndT.2 ht
    have hmidfresh : key ∉ keysA cmid.store := by
      intro hc
      exact hfresh (mem_keysA_eraseA.1 hc).1
    have hmidlen : cmid.len + 1 = c.len := by
      show (eraseA c.store h0).length + 1 = c.store.length
      exact length_eraseA_of_lookupA_some _ _ hndS hw
    obtain ⟨hwc, hwl, hwm, hws⟩ :=
      writeEntry_fresh_lru (c := cmid) now v ttl hmidcons hmidfresh
    refine ⟨_, hres, hwc, ?_, by rw [hwm], ?_⟩
    · rw [hwl]
      have : c.len = c.max_capacity := hlen_eq
      omega
    · intro j hj
      rcases hws j hj with rfl | hj2
      · exact Or.inl rfl
      · exact Or.inr (mem_keysA_eraseA.1 hj2).1
  · have hres : Simcache.insert (lruPolicy K) c now key v ttl =
        some (Simcache.writeEntry (lruPolicy K) c now key v ttl) := by
      simp [Simcache.insert, hcond]
    obtain ⟨hwc, hwl, hwm, hws⟩ :=
      writeEntry_fresh_lru (c := c) now v ttl ⟨hndS, hndA, hSA⟩ hfresh
    refine ⟨_, hres, hwc, ?_, by rw [hwm], hws⟩
    rw [hwl]
    have : c.len ≤ c.max_capacity - 1 := by
      have hnc := hcond
      simp at hnc
      exact hnc
    omega

end FreshInserts

section FreshInsertsLFU

variable {K : Type u} {V : Type v} [DecidableEq K]

theorem mem_keysA_key_used_lfu (p : LFU K) (key j : K) :
    j ∈ keysA (p.key_used key).usage_counter ↔
      j = key ∨ j ∈ keysA p.usage_counter := by
  obtain ⟨n, -, hn⟩ := LFU.key_used_usage p key
  rw [hn, mem_keysA_insertA]

theorem writeEntry_fresh_lfu {c : Simcache K V (LFU K)} {key : K}
    (now : Nat) (v : V) (ttl : Option Nat)
    (hcons : lfuConsistent c) (hfresh : key ∉ keysA c.store) :
    lfuConsistent (Simcache.writeEntry (lfuPolicy K) c now key v ttl) ∧
    (Simcache.writeEntry (lfuPolicy K) c now key v ttl).len = c.len + 1 ∧
    (Simcache.writeEntry (lfuPolicy K) c now key v ttl).max_capacity =
      c.max_capacity ∧
    (∀ j ∈ keysA (Simcache.writeEntry (lfuPolicy K) c now key v ttl).store,
      j = key ∨ j ∈ keysA c.store) := by
  obtain ⟨hndS, hInv, hSA⟩ := hcons
  have hlook : lookupA c.store key = none := lookupA_eq_none_of_not_mem hfresh
  refine ⟨⟨?_, ?_, ?_⟩, ?_, Simcache.writeEntry_max _ _ _ _ _ _, ?_⟩
  · rw [Simcache.writeEntry_store]
    exact nodup_keysA_insertA _ _ _ hndS
  · show (LFU.key_used c.eviction_policy key).Inv
    exact LFU.inv_key_used hInv key
  · intro j
    rw [Simcache.writeEntry_store]
    show j ∈ keysA (insertA c.store key _) ↔
      j ∈ keysA (LFU.key_used c.eviction_policy key).usage_counter
    rw [mem_keysA_insertA, mem_keysA_key_used_lfu]
    rw [hSA j]
  · show (Simcache.writeEntry (lfuPolicy K) c now key v ttl).store.length =
      c.store.length + 1
    rw [Simcache.writeEntry_store]
    exact length_insertA_of_lookupA_none _ _ _ hlook
  · intro j hj
    rw [Simcache.writeEntry_store] at hj
    rcases mem_keysA_insertA.1 hj with rfl | hj2
    · exact Or.inl rfl
    · exact Or.inr hj2

theorem insert_fresh_lfu (c : Simcache K V (LFU K)) (now : Nat) (key : K)
    (v : V) (ttl : Option Nat)
    (hcap : 1 ≤ c.max_capacity) (hcons : lfuConsistent c)
    (hlen : c.len ≤ c.max_capacity) (hfresh : key ∉ keysA c.store) :
    ∃ c', Simcache.insert (lfuPolicy K) c now key v ttl = some c' ∧
      lfuConsistent c' ∧ c'.len ≤ c.max_capacity ∧
      c'.max_capacity = c.max_capacity ∧
      (∀ j ∈ keysA c'.store, j = key ∨ j ∈ keysA c.store) := by
  obtain ⟨hndS, hInv, hSA⟩ := hcons
  have hlook : lookupA c.store key = none := lookupA_eq_none_of_not_mem hfresh
  have hget : Simcache.get (lfuPolicy K) c now key = (none, c) :=
    Simcache.get_absent _ hlook
  by_cases hcond : c.store.length > c.max_capacity - 1
  · have hlen_eq : c.store.length = c.max_capacity := by
      have hl : c.store.length ≤ c.max_capacity := hlen
      omega
    have hstore_ne : c.store ≠ [] := by
      intro hnil
      rw [hnil] at hlen_eq
      simp at hlen_eq
      omega
    have huc_ne : c.eviction_policy.usage_counter ≠ [] := by
      cases hs : c.store with
      | nil => exact absurd hs hstore_ne
      | cons a t =>
        intro hnil
        have ha : a.1 ∈ keysA c.store := by simp [hs]
        have := (hSA a.1).1 ha
        rw [hnil] at this
        simp [keysA] at this
    obtain ⟨k0, p0, hev0⟩ := LFU.evict_next_isSome hInv huc_ne
    obtain ⟨mc, s0, -, -, huk0, -, hp0uc, -, hp0inv⟩ :=
      LFU.evict_next_some_spec hInv hev0
    have hev : (lfuPolicy K).evict_next c.eviction_policy = some (k0, p0) :=
      hev0
    have hk0_uc : k0 ∈ keysA c.eviction_policy.usage_counter := by
      rw [mem_keysA_iff_lookupA, huk0]
      rfl
    have hk0_store : k0 ∈ keysA c.store := (hSA k0).2 hk0_uc
    obtain ⟨w, hw⟩ : ∃ w, lookupA c.store k0 = some w := by
      have hsome := (mem_keysA_iff_lookupA _ _).1 hk0_store
      cases hl : lookupA c.store k0 with
      | none => rw [hl] at hsome; simp at hsome
      | some w => exact ⟨w, rfl⟩
    have hres : Simcache.insert (lfuPolicy K) c now key v ttl =
        some (Simcache.writeEntry (lfuPolicy K)
          { store := eraseA c.store k0, eviction_policy := p0,
            max_capacity := c.max_capacity } now key v ttl) := by
      simp [Simcache.insert, hcond, hget, hev, Simcache.remove]
    set cmid : Simcache K V (LFU K) :=
      { store := eraseA c.store k0, eviction_policy := p0,
        max_capacity := c.max_capacity } with hcmid
    have hmidcons : lfuConsistent cmid := by
      refine ⟨nodup_keysA_eraseA _ _ hndS, hp0inv, ?_⟩
      intro j
      show j ∈ keysA (eraseA c.store k0) ↔ j ∈ keysA p0.usage_counter
      rw [hp0uc, mem_keysA_eraseA, mem_keysA_eraseA, hSA j]
    have hmidfresh : key ∉ keysA cmid.store := by
      intro hc
      exact hfresh (mem_keysA_eraseA.1 hc).1
    have hmidlen : cmid.len + 1 = c.len := by
      show (eraseA c.store k0).length + 1 = c.store.length
      exact length_eraseA_of_lookupA_some _ _ hndS hw
    obtain ⟨hwc, hwl, hwm, hws⟩ :=
      writeEntry_fresh_lfu (c := cmid) now v ttl hmidcons hmidfresh
    refine ⟨_, hres, hwc, ?_, by rw [hwm], ?_⟩
    · rw [hwl]
      have : c.len = c.max_capacity := hlen_eq
      omega
    · intro j hj
      rcases hws j hj with rfl | hj2
      · exact Or.inl rfl
      · exact Or.inr (mem_keysA_eraseA.1 hj2).1
  · have hres : Simcache.insert (lfuPolicy K) c now key v ttl =
        some (Simcache.writeEntry (lfuPolicy K) c now key v ttl) := by
      simp [Simcache.insert, hcond]
    obtain ⟨hwc, hwl, hwm, hws⟩ :=
      writeEntry_fresh_lfu (c := c) now v ttl ⟨hndS, hInv, hSA⟩ hfresh
    refine ⟨_, hres, hwc, ?_, by rw [hwm], hws⟩
    rw [hwl]
    have : c.len ≤ c.max_capacity - 1 := by
      have hnc := hcond
      simp at hnc
      exact hnc
    omega

end FreshInsertsLFU

section RunInsertBounds

variable {K : Type u} {V : Type v} [DecidableEq K]

theorem runInserts_lru_bound :
    ∀ (ops : List (Nat × K × V × Option Nat)) (c : Simcache K V (LRU K)),
      1 ≤ c.max_capacity → lruConsistent c → c.len ≤ c.max_capacity →
      (∀ o ∈ ops, o.2.1 ∉ keysA c.store) →
      (ops.map fun o => o.2.1).Nodup →
      ∀ c', runInserts (lruPolicy K) c ops = some c' →
        c'.len ≤ c.max_capacity ∧ c'.max_capacity = c.max_capacity := by
  intro ops
  induction ops with
  | nil =>
    intro c h1 h2 h3 h4 h5 c' hrun
    simp [runInserts] at hrun
    rw [← hrun]
    exact ⟨h3, rfl⟩
  | cons o rest ih =>
    intro c h1 h2 h3 h4 h5 c' hrun
    obtain ⟨now, key, v, ttl⟩ := o
    obtain ⟨c1, hc1, hcons1, hlen1, hmax1, hsub1⟩ :=
      insert_fresh_lru c now key v ttl h1 h2 h3 (h4 _ (List.mem_cons_self _ _))
    simp only [runInserts] at hrun
    rw [hc1] at hrun
    have h5s : key ∉ rest.map (fun o => o.2.1) ∧
        (rest.map fun o => o.2.1).Nodup := by
      rw [List.map_cons, List.nodup_cons] at h5
      exact h5
    have h4' : ∀ o ∈ rest, o.2.1 ∉ keysA c1.store := by
      intro o ho hmem
      rcases hsub1 _ hmem with heq | hmem2
      · exact h5s.1 (heq ▸ List.mem_map_of_mem _ ho)
      · exact h4 _ (List.mem_cons_of_mem _ ho) hmem2
    obtain ⟨hlen', hmax'⟩ :=
      ih c1 (by omega) hcons1 (by omega) h4' h5s.2 c' hrun
    constructor <;> omega

theorem runInserts_lfu_bound :
    ∀ (ops : List (Nat × K × V × Option Nat)) (c : Simcache K V (LFU K)),
      1 ≤ c.max_capacity → lfuConsistent c → c.len ≤ c.max_capacity →
      (∀ o ∈ ops, o.2.1 ∉ keysA c.store) →
      (ops.map fun o => o.2.1).Nodup →
      ∀ c', runInserts (lfuPolicy K) c ops = some c' →
        c'.len ≤ c.max_capacity ∧ c'.max_capacity = c.max_capacity := by
  intro ops
  induction ops with
  | nil =>
    intro c h1 h2 h3 h4 h5 c' hrun
    simp [runInserts] at hrun
    rw [← hrun]
    exact ⟨h3, rfl⟩
  | cons o rest ih =>
    intro c h1 h2 h3 h4 h5 c' hrun
    obtain ⟨now, key, v, ttl⟩ := o
    obtain ⟨c1, hc1, hcons1, hlen1, hmax1, hsub1⟩ :=
      insert_fresh_lfu c now key v ttl h1 h2 h3 (h4 _ (List.mem_cons_self _ _))
    simp only [runInserts] at hrun
    rw [hc1] at hrun
    have h5s : key ∉ rest.map (fun o => o.2.1) ∧
        (rest.map fun o => o.2.1).Nodup := by
      rw [List.map_cons, List.nodup_cons] at h5
      exact h5
    have h4' : ∀ o ∈ rest, o.2.1 ∉ keysA c1.store := by
      intro o ho hmem
      rcases hsub1 _ hmem with heq | hmem2
      · exact h5s.1 (heq ▸ List.mem_map_of_mem _ ho)
      · exact h4 _ (List.mem_cons_of_mem _ ho) hmem2
    obtain ⟨hlen', hmax'⟩ :=
      ih c1 (by omega) hcons1 (by omega) h4' h5s.2 c' hrun
    constructor <;> omega

end RunInsertBounds

section InsertShape

variable {K : Type u} {V : Type v} {P : Type w} [DecidableEq K]

theorem writeEntry_store_map (pol : EvictionPolicy P K) (c : Simcache K V P)
    (now : Nat) (key : K) (v : V) (ttl : Option Nat) :
    (Simcache.writeEntry pol c now key v ttl).store =
      insertA c.store key (v, ttl.map fun x => now + x) := by
  cases ttl <;> rfl

/-- Whatever branch `insert` takes, when it returns, the final store is an
`insertA` of the written entry over some intermediate store. -/
theorem insert_some_store (pol : EvictionPolicy P K)
    {c c' : Simcache K V P} {now : Nat} {key : K} {v : V} {ttl : Option Nat}
    (h : Simcache.insert pol c now key v ttl = some c') :
    ∃ s, c'.store = insertA s key (v, ttl.map fun x => now + x) := by
  simp only [Simcache.insert] at h
  split at h
  · split at h
    · split at h
      · exact Option.noConfusion h
      · injection h with h
        exact ⟨_, by rw [← h, writeEntry_store_map]⟩
    · injection h with h
      exact ⟨_, by rw [← h, writeEntry_store_map]⟩
  · injection h with h
    exact ⟨_, by rw [← h, writeEntry_store_map]⟩

end InsertShape

/-! ### Concrete states used by the claim theorems -/

/-- The cap-1 LRU cache after `insert 10` (value 0, no ttl) at instant 0. -/
def c1c : Simcache Nat Nat (LRU Nat) := ⟨[(10, (0, none))], ⟨[10]⟩, 1⟩

/-- The cap-2 LRU cache after `insert 5` (value 55, no ttl) at instant 0. -/
def c2c : Simcache Nat Nat (LRU Nat) := ⟨[(5, (55, none))], ⟨[5]⟩, 2⟩

/-- States of the cap-1 LRU cache along `insert 10; remove 10; insert 11;
insert 12`. -/
def c3c1 : Simcache Nat Nat (LRU Nat) := ⟨[(10, (0, none))], ⟨[10]⟩, 1⟩

def c3c3 : Simcache Nat Nat (LRU Nat) := ⟨[(11, (0, none))], ⟨[10, 11]⟩, 1⟩

def c3c4 : Simcache Nat Nat (LRU Nat) :=
  ⟨[(12, (0, none)), (11, (0, none))], ⟨[11, 12]⟩, 1⟩

/-- Two fresh inserts at capacity 1 (C4 witness input). -/
def c4ops : List (Nat × Nat × Nat × Option Nat) := [(0, 0, 0, none), (0, 1, 1, none)]

/-- States of the cap-2 LRU cache along `insert 100 (no ttl); insert 200
(ttl 0) at instant 0; insert 200 again at instant 1`. -/
def c5a : Simcache Nat Nat (LRU Nat) := ⟨[(100, (0, none))], ⟨[100]⟩, 2⟩

def c5b : Simcache Nat Nat (LRU Nat) :=
  ⟨[(200, (1, some 0)), (100, (0, none))], ⟨[100, 200]⟩, 2⟩

def c5c : Simcache Nat Nat (LRU Nat) := ⟨[(200, (2, none))], ⟨[200]⟩, 2⟩

/-- A cap-2 LRU cache at capacity whose key 1 is live (C5 amended witness). -/
def c5w : Simcache Nat Nat (LRU Nat) :=
  ⟨[(1, (5, none)), (2, (6, none))], ⟨[1, 2]⟩, 2⟩

/-- The cap-2 LRU cache after `insert 7` (value 77, ttl 0) at instant 5. -/
def c6c : Simcache Nat Nat (LRU Nat) := ⟨[(7, (77, some 5))], ⟨[7]⟩, 2⟩

/-- C6 amended witness states: key 1 inserted at instant 0 with ttl 0,
resp. with no ttl. -/
def c6w1 : Simcache Nat Nat (LRU Nat) := ⟨[(1, (9, some 0))], ⟨[1]⟩, 2⟩

def c6w2 : Simcache Nat Nat (LRU Nat) := ⟨[(1, (9, none))], ⟨[1]⟩, 2⟩

/-- C7 witness input and its result state. -/
def c7ops : List (LFUOp Nat) :=
  [LFUOp.used 1, LFUOp.used 2, LFUOp.used 2, LFUOp.used 3, LFUOp.used 3,
   LFUOp.evict, LFUOp.removed 2]

def c7res : LFU Nat := ⟨[(3, 2)], [(2, [3])]⟩

/-- C8 witness policy: keys 1 (count 1) and 2 (count 2). -/
def c8p : LFU Nat := ⟨[(2, 2), (1, 1)], [(2, [2]), (1, [1])]⟩

/-- C9 scenario states (capacity-3 LRU cache, keys 1..5 for a..e). -/
def c9c1 : Simcache Nat Nat (LRU Nat) := ⟨[(1, (1, none))], ⟨[1]⟩, 3⟩

def c9c2 : Simcache Nat Nat (LRU Nat) :=
  ⟨[(2, (2, none)), (1, (1, none))], ⟨[1, 2]⟩, 3⟩

def c9c3 : Simcache Nat Nat (LRU Nat) :=
  ⟨[(3, (3, none)), (2, (2, none)), (1, (1, none))], ⟨[1, 2, 3]⟩, 3⟩

def c9c4 : Simcache Nat Nat (LRU Nat) :=
  ⟨[(4, (4, none)), (3, (3, none)), (2, (2, none))], ⟨[2, 3, 4]⟩, 3⟩

def c9c5 : Simcache Nat Nat (LRU Nat) :=
  ⟨[(5, (5, none)), (4, (4, none)), (2, (2, none))], ⟨[4, 2, 5]⟩, 3⟩

/-- A cap-3 LRU cache holding only key 1 (C10 witness). -/
def c10c : Simcache Nat Nat (LRU Nat) := ⟨[(1, (10, none))], ⟨[1]⟩, 3⟩

/-! ### The claims -/

/-- Claim C1 (code bug): the store/policy consistency invariant fails on a
path with no lazy expiry at all.  After `insert 10; remove 10` on a cap-1
LRU cache (no ttl anywhere), the store no longer contains key 10, yet the
LRU policy still tracks it: `Simcache::remove` never informs the policy (the
`remove_key` call in `src/cache.rs` is commented out). -/
theorem c1_remove_orphans_policy_record :
    Simcache.insert (lruPolicy Nat) (Simcache.new (lruPolicy Nat) 1) 0 10 0 none
      = some c1c ∧
    lookupA (Simcache.remove c1c 10).2.store 10 = none ∧
    10 ∈ (Simcache.remove c1c 10).2.eviction_policy.access_order := by
  decide

/-- Claim C2 (code bug): `remove` deletes the entry from the store and
returns its value, but does NOT erase the eviction policy's bookkeeping for
the key — the policy's removal operation is never invoked
(`src/cache.rs` line 87 is commented out), so the access-order record for
the removed key survives. -/
theorem c2_remove_does_not_inform_policy :
    Simcache.insert (lruPolicy Nat) (Simcache.new (lruPolicy Nat) 2) 0 5 55 none
      = some c2c ∧
    (Simcache.remove c2c 5).1 = some 55 ∧
    lookupA (Simcache.remove c2c 5).2.store 5 = none ∧
    (Simcache.remove c2c 5).2.eviction_policy.access_order = [5] := by
  decide

/-- Claim C3 (code bug): `store.len() <= max_capacity` is violated after the
fully public sequence `insert 10; remove 10; insert 11; insert 12` on a
cap-1 LRU cache: the orphaned policy record for key 10 is chosen as the
eviction victim, its removal from the store is a no-op, and the store grows
to 2 entries with `max_capacity = 1`. -/
theorem c3_capacity_invariant_violated :
    Simcache.insert (lruPolicy Nat) (Simcache.new (lruPolicy Nat) 1) 0 10 0 none
      = some c3c1 ∧
    Simcache.insert (lruPolicy Nat) (Simcache.remove c3c1 10).2 0 11 0 none
      = some c3c3 ∧
    Simcache.insert (lruPolicy Nat) c3c3 0 12 0 none = some c3c4 ∧
    c3c4.max_capacity = 1 ∧ c3c4.len = 2 := by
  decide

/-- Claim C4: for every cache built with `max_capacity ≥ 1` under the LRU or
the LFU policy, and every sequence of `insert` calls with pairwise-distinct
keys (arbitrary instants, values and ttls), whenever the sequence runs to
completion `len() ≤ max_capacity` holds — and since every prefix of such a
sequence is again such a sequence, the bound holds after each call. -/
theorem c4_distinct_insert_capacity_bound {K : Type u} {V : Type v}
    [DecidableEq K] (cap : Nat) (hcap : 1 ≤ cap)
    (ops : List (Nat × K × V × Option Nat))
    (hnd : (ops.map fun o => o.2.1).Nodup) :
    (∀ c', runInserts (lruPolicy K) (Simcache.new (lruPolicy K) cap) ops
      = some c' → c'.len ≤ cap) ∧
    (∀ c', runInserts (lfuPolicy K) (Simcache.new (lfuPolicy K) cap) ops
      = some c' → c'.len ≤ cap) := by
  constructor
  · intro c' hrun
    have hcons : lruConsistent (Simcache.new (V := V) (lruPolicy K) cap) := by
      refine ⟨by simp [Simcache.new, keysA], ?_, ?_⟩
      · show ([] : List K).Nodup
        simp
      · intro j
        show j ∈ keysA ([] : List (K × (V × Option Nat))) ↔ j ∈ ([] : List K)
        simp [keysA]
    have h := runInserts_lru_bound ops _ hcap hcons (Nat.zero_le _)
      (by intro o ho hc; simp [Simcache.new, keysA] at hc) hnd c' hrun
    exact h.1
  · intro c' hrun
    have hcons : lfuConsistent (Simcache.new (V := V) (lfuPolicy K) cap) := by
      refine ⟨by simp [Simcache.new, keysA], LFU.inv_new, ?_⟩
      intro j
      show j ∈ keysA ([] : List (K × (V × Option Nat))) ↔
        j ∈ keysA ([] : List (K × Nat))
      simp [keysA]
    have h := runInserts_lfu_bound ops _ hcap hcons (Nat.zero_le _)
      (by intro o ho hc; simp [Simcache.new, keysA] at hc) hnd c' hrun
    exact h.1

/-- Witness for C4 at capacity 1 with two distinct keys. -/
theorem c4_distinct_insert_capacity_bound_witness :
    (1 ≤ 1 ∧ (c4ops.map fun o => o.2.1).Nodup) ∧
    ((∀ c', runInserts (lruPolicy Nat) (Simcache.new (lruPolicy Nat) 1) c4ops
      = some c' → c'.len ≤ 1) ∧
     (∀ c', runInserts (lfuPolicy Nat) (Simcache.new (lfuPolicy Nat) 1) c4ops
      = some c' → c'.len ≤ 1)) :=
  ⟨⟨by decide, by decide⟩,
    c4_distinct_insert_capacity_bound 1 (by decide) c4ops (by decide)⟩

/-- Claim C5 counterexample: the claim fails when the already-present key's
entry is expired.  A cap-2 LRU cache at capacity holds key 200 (physically
present, ttl 0, expired) and key 100; re-inserting key 200 at instant 1
triggers an eviction — key 100's entry is removed — and `len()` drops from
2 to 1. -/
theorem c5_overwrite_at_capacity_evicts :
    Simcache.insert (lruPolicy Nat) (Simcache.new (lruPolicy Nat) 2) 0 100 0 none
      = some c5a ∧
    Simcache.insert (lruPolicy Nat) c5a 0 200 1 (some 0) = some c5b ∧
    c5b.len = c5b.max_capacity ∧
    (lookupA c5b.store 200).isSome ∧
    Simcache.insert (lruPolicy Nat) c5b 1 200 2 none = some c5c ∧
    lookupA c5c.store 100 = none ∧
    c5c.len ≠ c5b.len := by
  decide

/-- Claim C5 (amended): whenever the store is at `max_capacity` and `insert`
is called with a key already present whose entry is NOT expired at the
insert's instant, no eviction is triggered — every other key's entry is
untouched — and `len()` is unchanged.  (If the present entry is expired, the
presence probe inside `insert` removes it and an eviction does fire, as the
counterexample shows.) -/
theorem c5_overwrite_live_key_no_eviction {K : Type u} {V : Type v}
    {P : Type w} [DecidableEq K] (pol : EvictionPolicy P K)
    (c : Simcache K V P) (now : Nat) (key : K) (v : V) (ttl : Option Nat)
    {w : V} {e : Option Nat}
    (hpresent : lookupA c.store key = some (w, e))
    (hlive : ∀ x, e = some x → ¬ now > x)
    (hnd : (keysA c.store).Nodup)
    (hatcap : c.len = c.max_capacity) :
    ∃ c', Simcache.insert pol c now key v ttl = some c' ∧
      c'.len = c.len ∧
      (∀ j, j ≠ key → lookupA c'.store j = lookupA c.store j) := by
  have hget : Simcache.get pol c now key =
      (some w, { c with eviction_policy := pol.key_used c.eviction_policy key }) := by
    cases e with
    | none => exact Simcache.get_no_ttl pol hpresent
    | some x => exact Simcache.get_live pol hpresent (hlive x rfl)
  by_cases hcond : c.store.length > c.max_capacity - 1
  · have hres : Simcache.insert pol c now key v ttl =
        some (Simcache.writeEntry pol
          { c with eviction_policy := pol.key_used c.eviction_policy key }
          now key v ttl) := by
      simp [Simcache.insert, hcond, hget]
    refine ⟨_, hres, ?_, ?_⟩
    · show (Simcache.writeEntry pol
        { c with eviction_policy := pol.key_used c.eviction_policy key }
        now key v ttl).store.length = c.store.length
      rw [writeEntry_store_map]
      exact length_insertA_of_lookupA_some _ _ _ hnd hpresent
    · intro j hj
      show lookupA (Simcache.writeEntry pol
        { c with eviction_policy := pol.key_used c.eviction_policy key }
        now key v ttl).store j = lookupA c.store j
      rw [writeEntry_store_map]
      exact lookupA_insertA_ne _ _ hj
  · have hres : Simcache.insert pol c now key v ttl =
        some (Simcache.writeEntry pol c now key v ttl) := by
      simp [Simcache.insert, hcond]
    refine ⟨_, hres, ?_, ?_⟩
    · show (Simcache.writeEntry pol c now key v ttl).store.length
        = c.store.length
      rw [writeEntry_store_map]
      exact length_insertA_of_lookupA_some _ _ _ hnd hpresent
    · intro j hj
      show lookupA (Simcache.writeEntry pol c now key v ttl).store j
        = lookupA c.store j
      rw [writeEntry_store_map]
      exact lookupA_insertA_ne _ _ hj

/-- Witness for the amended C5: overwriting the live key 1 of a cap-2 cache
at capacity. -/
theorem c5_overwrite_live_key_no_eviction_witness :
    lookupA c5w.store 1 = some (5, none) ∧
    (keysA c5w.store).Nodup ∧ c5w.len = c5w.max_capacity ∧
    (∃ c', Simcache.insert (lruPolicy Nat) c5w 0 1 7 none = some c' ∧
      c'.len = c5w.len ∧
      (∀ j, j ≠ 1 → lookupA c'.store j = lookupA c5w.store j)) :=
  ⟨by decide, by decide, by decide,
    c5_overwrite_live_key_no_eviction (lruPolicy Nat) c5w 0 1 7 none
      (w := 5) (e := none) (by decide) (by simp) (by decide) (by decide)⟩

/-- Claim C6 counterexample: an entry inserted with `ttl = 0` at instant 5
is returned — not expired — by a `get` at the very same instant, because the
expiry test `Instant::now() > expiry` is strict; so "an immediately
following get returns nothing" fails at zero elapsed time. -/
theorem c6_ttl_zero_same_instant_returns_value :
    Simcache.insert (lruPolicy Nat) (Simcache.new (lruPolicy Nat) 2) 5 7 77
      (some 0) = some c6c ∧
    (Simcache.get (lruPolicy Nat) c6c 5 7).1 = some 77 := by
  decide

/-- Claim C6 (amended): with explicit instants, an entry inserted at `t0`
with ttl `d` is absent for every `get` at any strictly later instant
`t1 > t0 + d` (for `ttl = 0` that is every instant after the insert; at the
exact insertion instant the strict comparison keeps it alive, per the
counterexample); an entry inserted with no ttl is returned by `get` at every
instant, regardless of elapsed time. -/
theorem c6_ttl_expiry_amended {K : Type u} {V : Type v} {P : Type w}
    [DecidableEq K] (pol : EvictionPolicy P K) (c : Simcache K V P)
    (t0 : Nat) (key : K) (v : V) :
    (∀ d c', Simcache.insert pol c t0 key v (some d) = some c' →
      ∀ t1, t0 + d < t1 → (Simcache.get pol c' t1 key).1 = none) ∧
    (∀ c', Simcache.insert pol c t0 key v none = some c' →
      ∀ t1, (Simcache.get pol c' t1 key).1 = some v) := by
  constructor
  · intro d c' hins t1 ht
    obtain ⟨s, hs⟩ := insert_some_store pol hins
    have hl : lookupA c'.store key = some (v, some (t0 + d)) := by
      rw [hs]
      simp
    rw [Simcache.get_expired pol hl ht]
  · intro c' hins t1
    obtain ⟨s, hs⟩ := insert_some_store pol hins
    have hl : lookupA c'.store key = some (v, none) := by
      rw [hs]
      simp
    rw [Simcache.get_no_ttl pol hl]

/-- Witness for the amended C6: ttl 0 at instant 0 expires by instant 1; no
ttl still returned at instant 100. -/
theorem c6_ttl_expiry_amended_witness :
    Simcache.insert (lruPolicy Nat) (Simcache.new (lruPolicy Nat) 2) 0 1 9
      (some 0) = some c6w1 ∧
    0 + 0 < 1 ∧
    (Simcache.get (lruPolicy Nat) c6w1 1 1).1 = none ∧
    Simcache.insert (lruPolicy Nat) (Simcache.new (lruPolicy Nat) 2) 0 1 9
      none = some c6w2 ∧
    (Simcache.get (lruPolicy Nat) c6w2 100 1).1 = some 9 :=
  ⟨by decide, by decide,
    (c6_ttl_expiry_amended (lruPolicy Nat) (Simcache.new (lruPolicy Nat) 2)
      0 1 9).1 0 c6w1 (by decide) 1 (by decide),
    by decide,
    (c6_ttl_expiry_amended (lruPolicy Nat) (Simcache.new (lruPolicy Nat) 2)
      0 1 9).2 c6w2 (by decide) 100⟩

/-- Claim C7: after any panic-free sequence of `key_used`, `remove_key` and
`evict_next` operations starting from an empty LFU policy, every retained
bucket `count_to_key[c]` is non-empty and contains exactly the keys whose
`usage_counter` value is `c`. -/
theorem c7_lfu_dual_index_invariant {K : Type u} [DecidableEq K]
    (ops : List (LFUOp K)) (p : LFU K)
    (hrun : runLFU LFU.new ops = some p) :
    ∀ c s, lookupA p.count_to_key c = some s →
      s ≠ [] ∧ ∀ k, k ∈ s ↔ lookupA p.usage_counter k = some c := by
  have hinv := LFU.runLFU_inv ops LFU.new p LFU.inv_new hrun
  intro c s hcs
  have hmem := lookupA_some_mem hcs
  refine ⟨(hinv.2.2.1 _ hmem).1, ?_⟩
  intro k
  constructor
  · intro hk
    exact hinv.2.2.2.1 _ hmem k hk
  · intro hk
    obtain ⟨s2, hs2, hks2⟩ := (hinv.2.2.2.2 _ (lookupA_some_mem hk)).2
    rw [hcs] at hs2
    injection hs2 with hs2
    rw [hs2]
    exact hks2

/-- Witness for C7 on a concrete 7-operation run. -/
theorem c7_lfu_dual_index_invariant_witness :
    runLFU LFU.new c7ops = some c7res ∧
    (∀ c s, lookupA c7res.count_to_key c = some s →
      s ≠ [] ∧ ∀ k, k ∈ s ↔ lookupA c7res.usage_counter k = some c) :=
  ⟨by decide, c7_lfu_dual_index_invariant c7ops c7res (by decide)⟩

/-- Claim C8: on any non-empty LFU policy satisfying the dual-index
invariant, `evict_next` returns a key whose usage count is minimal among all
tracked keys, erases that key's counter entry and its membership in its
count bucket, and deletes the bucket exactly when it becomes empty. -/
theorem c8_evict_next_min_count {K : Type u} [DecidableEq K] (p : LFU K)
    (hInv : p.Inv) (hne : p.usage_counter ≠ []) :
    ∃ k p' c s, p.evict_next = some (k, p') ∧
      lookupA p.count_to_key c = some s ∧ k ∈ s ∧
      lookupA p.usage_counter k = some c ∧
      (∀ r ∈ p.usage_counter, c ≤ r.2) ∧
      lookupA p'.usage_counter k = none ∧
      lookupA p'.count_to_key c =
        (if s.erase k = [] then none else some (s.erase k)) := by
  obtain ⟨k, p', hev⟩ := LFU.evict_next_isSome hInv hne
  obtain ⟨c, s, h1, h2, h3, h4, h5, h6, -⟩ := LFU.evict_next_some_spec hInv hev
  refine ⟨k, p', c, s, hev, h1, h2, h3, h4, ?_, h6⟩
  rw [h5]
  exact lookupA_eraseA_self _ _

/-- Witness for C8 on a concrete invariant-satisfying policy. -/
theorem c8_evict_next_min_count_witness :
    c8p.Inv ∧ c8p.usage_counter ≠ [] ∧
    (∃ k p' c s, c8p.evict_next = some (k, p') ∧
      lookupA c8p.count_to_key c = some s ∧ k ∈ s ∧
      lookupA c8p.usage_counter k = some c ∧
      (∀ r ∈ c8p.usage_counter, c ≤ r.2) ∧
      lookupA p'.usage_counter k = none ∧
      lookupA p'.count_to_key c =
        (if s.erase k = [] then none else some (s.erase k))) :=
  ⟨by decide, by decide, c8_evict_next_min_count c8p (by decide) (by decide)⟩

/-- Claim C9: in a capacity-3 LRU cache, inserting keys 1,2,3 (for a,b,c; no
ttl) then 4 (d) evicts key 1 — a following `get 1` returns nothing while
`get 2` still returns b's value — and after that refreshing `get 2`,
inserting 5 (e) evicts key 3 (c), not key 2 (b). -/
theorem c9_lru_eviction_scenario :
    Simcache.insert (lruPolicy Nat) (Simcache.new (lruPolicy Nat) 3) 0 1 1 none
      = some c9c1 ∧
    Simcache.insert (lruPolicy Nat) c9c1 0 2 2 none = some c9c2 ∧
    Simcache.insert (lruPolicy Nat) c9c2 0 3 3 none = some c9c3 ∧
    Simcache.insert (lruPolicy Nat) c9c3 0 4 4 none = some c9c4 ∧
    (Simcache.get (lruPolicy Nat) c9c4 0 1).1 = none ∧
    (Simcache.get (lruPolicy Nat)
      (Simcache.get (lruPolicy Nat) c9c4 0 1).2 0 2).1 = some 2 ∧
    Simcache.insert (lruPolicy Nat)
      (Simcache.get (lruPolicy Nat)
        (Simcache.get (lruPolicy Nat) c9c4 0 1).2 0 2).2 0 5 5 none
      = some c9c5 ∧
    lookupA c9c5.store 3 = none ∧
    lookupA c9c5.store 2 = some (2, none) ∧
    lookupA c9c5.store 1 = none := by
  decide

/-- Claim C10: `get` on a key absent from the store returns nothing and
leaves the whole cache — store, eviction-policy state and `max_capacity` —
exactly as it was, for every eviction policy. -/
theorem c10_get_absent_frame {K : Type u} {V : Type v} {P : Type w}
    [DecidableEq K] (pol : EvictionPolicy P K) (c : Simcache K V P)
    (now : Nat) (key : K) (h : lookupA c.store key = none) :
    Simcache.get pol c now key = (none, c) :=
  Simcache.get_absent pol h

/-- Witness for C10: key 2 is absent from `c10c`. -/
theorem c10_get_absent_frame_witness :
    lookupA c10c.store 2 = none ∧
    Simcache.get (lruPolicy Nat) c10c 0 2 = (none, c10c) :=
  ⟨by decide, c10_get_absent_frame (lruPolicy Nat) c10c 0 2 (by decide)⟩
